import Mathlib

/-!
Verification of the semantic text splitter (two pipeline variants:
a pure one, `textsplitter_without_embedding.py`, and a storage-coupled
one, `textsplitter.py`).  Text is modelled as `List Char`; page and
chunk offsets are `Nat` (Python character indices).  Side-effecting
pipeline steps are modelled as explicit event traces so that claims
about laziness and provider calls can be stated over trace prefixes.
-/

/-- Embedding of `Page` (docling `base_models`): a page number, the
character offset of the page's first character in the concatenated
full text, and the page's raw text. -/
structure Page where
  page_num : Nat
  offset : Nat
  text : List Char
deriving DecidableEq, Repr

/-- Embedding of `SplitPage`: one produced chunk with the page number
it was attributed to (0 is the sentinel for a failed attribution). -/
structure SplitPage where
  page_num : Nat
  text : List Char
deriving DecidableEq, Repr

/-- Embedding of the inner `find_page` of
`textsplitter_without_embedding.py` (lines 61-65): scan adjacent pairs
in order, return the first `pages[i].page_num` with
`pages[i].offset <= offset < pages[i+1].offset`, else the last page's
`page_num`.  The `[]` case is unreachable in the pipeline (the Python
code would raise `IndexError` on `pages[-1]`); it returns 0 here. -/
def find_page (pages : List Page) (offset : Nat) : Nat :=
  match pages with
  | [] => 0
  | [p] => p.page_num
  | p :: q :: rest =>
    if p.offset ≤ offset ∧ offset < q.offset then p.page_num
    else find_page (q :: rest) offset

/-- Embedding of Python `haystack.find(needle, start)` for `0 ≤ start ≤
len(haystack)`: the least index `i ≥ start` at which `needle` occurs as
a contiguous substring, or `none` (Python returns -1). -/
def findFrom (hay needle : List Char) (start : Nat) : Option Nat :=
  (List.range (hay.length + 1)).find?
    (fun i => decide (start ≤ i) && needle.isPrefixOf (hay.drop i))

/-- Embedding of `"".join(page.text for page in pages)`. -/
def full_text (pages : List Page) : List Char :=
  (pages.map Page.text).flatten

/-- Boolean check that the page offsets are non-decreasing in sequence
order (the spec's ordering invariant on a page sequence). -/
def offsets_nondecreasing : List Page → Bool
  | p :: q :: rest => decide (p.offset ≤ q.offset) && offsets_nondecreasing (q :: rest)
  | _ => true

/-- Boolean check that the page offsets are strictly increasing. -/
def offsets_increasing : List Page → Bool
  | p :: q :: rest => decide (p.offset < q.offset) && offsets_increasing (q :: rest)
  | _ => true

/-- Observable events of a pipeline run: invoking the external chunker,
one embedding-provider call, one vector-store `add`, and yielding one
chunk to the consumer. -/
inductive Event where
  | chunkCall (full : List Char)
  | embedCall (c : List Char)
  | storeAdd (ids : List (List Char)) (docs : List (List Char)) (embs : List (List Int))
  | yieldChunk (sp : SplitPage)
deriving DecidableEq, Repr

/-- Embedding of the attribution loop of the pure pipeline
(`textsplitter_without_embedding.py` lines 67-75), as the sequence of
yield events it performs: each chunk is searched for in `full` from the
cursor `cur`; on a hit the chunk is attributed via `find_page` and the
cursor moves past the chunk's end; on a miss the chunk is yielded with
sentinel page 0 and the cursor stays. -/
def splitLoopTrace (pages : List Page) (full : List Char) :
    List (List Char) → Nat → List Event
  | [], _ => []
  | c :: cs, cur =>
    match findFrom full c cur with
    | none => Event.yieldChunk ⟨0, c⟩ :: splitLoopTrace pages full cs cur
    | some s =>
        Event.yieldChunk ⟨find_page pages s, c⟩ ::
          splitLoopTrace pages full cs (s + c.length)

/-- Embedding of `SemanticTextSplitter.split_pages` of
`textsplitter_without_embedding.py` (Mode A, pure) as an event trace.
The external chunker is a parameter.  Empty page list or all-whitespace
concatenated text short-circuits before any chunker call (Python:
`if not pages` and `if not all_text.strip()`). -/
def split_pages_trace (pages : List Page)
    (chunker : List Char → List (List Char)) : List Event :=
  if pages.isEmpty then []
  else
    let all_text := full_text pages
    if all_text.all Char.isWhitespace then []
    else Event.chunkCall all_text :: splitLoopTrace pages all_text (chunker all_text) 0

/-- The chunks a trace yields, in order. -/
def yieldsOf (tr : List Event) : List SplitPage :=
  tr.filterMap (fun e =>
    match e with
    | Event.yieldChunk sp => some sp
    | _ => none)

/-- The `SplitPage` results of the pure pipeline (Mode A). -/
def split_pages (pages : List Page)
    (chunker : List Char → List (List Char)) : List SplitPage :=
  yieldsOf (split_pages_trace pages chunker)

/-- Embedding of the id scheme `f"chunk_{i}"` of `textsplitter.py`. -/
def chunk_id (i : Nat) : List Char :=
  ("chunk_" ++ toString i).data

/-- Embedding of `SemanticTextSplitter.split_pages` of `textsplitter.py`
(Mode B, storage-coupled) as an event trace.  `embedding_function`
models `self.chunker.embedding_function(chunk)[0]`.  After the
whitespace guard the code chunks, embeds every chunk in order, performs
one `collection.add` with ids `chunk_0 .. chunk_{n-1}`, and only then
yields every chunk with the placeholder page number 0. -/
def split_pages_store_trace (pages : List Page)
    (chunker : List Char → List (List Char))
    (embedding_function : List Char → List Int) : List Event :=
  let ft := full_text pages
  if ft.all Char.isWhitespace then []
  else
    let chunks := chunker ft
    Event.chunkCall ft ::
      (chunks.map Event.embedCall ++
        (Event.storeAdd ((List.range chunks.length).map chunk_id) chunks
            (chunks.map embedding_function) ::
          chunks.map (fun c => Event.yieldChunk ⟨0, c⟩)))

/-- Generator-consumption semantics: the prefix of a pipeline trace that
has actually executed once a consumer has requested `k` chunks.  The
generator body is suspended at each yield, so the prefix is the
shortest one containing `k` yield events (the whole trace if it has
fewer); requesting no chunk runs nothing. -/
def takeYields : List Event → Nat → List Event
  | _, 0 => []
  | [], _ => []
  | Event.yieldChunk sp :: tr, Nat.succ k => Event.yieldChunk sp :: takeYields tr k
  | e :: tr, Nat.succ k => e :: takeYields tr (Nat.succ k)

/-- True exactly on embedding-provider and vector-store events. -/
def isProviderEffect : Event → Bool
  | Event.embedCall _ => true
  | Event.storeAdd _ _ _ => true
  | _ => false

/-- True exactly on yield events. -/
def isYieldEv : Event → Bool
  | Event.yieldChunk _ => true
  | _ => false

/-- Observable events of `retrieve_context` (`textsplitter.py` lines
74-87): embed the query, then query the store with `n_results = top_k`.
The Python function has no validation and no raise path, so the model
is total. -/
inductive REvent where
  | embedQuery (q : List Char)
  | storeQuery (top_k : Int)
deriving DecidableEq, Repr

/-- Embedding of `SemanticTextSplitter.retrieve_context`: the trace of
provider calls it performs for a query and a `top_k`. -/
def retrieve_context (query : List Char) (top_k : Int) : List REvent :=
  [REvent.embedQuery query, REvent.storeQuery top_k]

/-! ### Helper lemmas about the ordering predicates and `find_page` -/

theorem offsets_nondecreasing_cons {p q : Page} {rest : List Page}
    (h : offsets_nondecreasing (p :: q :: rest) = true) :
    p.offset ≤ q.offset ∧ offsets_nondecreasing (q :: rest) = true := by
  simpa [offsets_nondecreasing, Bool.and_eq_true, decide_eq_true_eq] using h

theorem offsets_increasing_cons {p q : Page} {rest : List Page}
    (h : offsets_increasing (p :: q :: rest) = true) :
    p.offset < q.offset ∧ offsets_increasing (q :: rest) = true := by
  simpa [offsets_increasing, Bool.and_eq_true, decide_eq_true_eq] using h

theorem offsets_increasing_nondecr (l : List Page)
    (h : offsets_increasing l = true) : offsets_nondecreasing l = true := by
  induction l with
  | nil => rfl
  | cons p tail ih =>
    cases tail with
    | nil => rfl
    | cons q rest =>
      obtain ⟨h1, h2⟩ := offsets_increasing_cons h
      simp only [offsets_nondecreasing, Bool.and_eq_true, decide_eq_true_eq]
      exact ⟨Nat.le_of_lt h1, ih h2⟩

theorem offset_head_le (l : List Page) (p : Page)
    (h : offsets_nondecreasing (p :: l) = true)
    (k : Nat) (hk : k < (p :: l).length) :
    p.offset ≤ ((p :: l).get ⟨k, hk⟩).offset := by
  induction l generalizing p k with
  | nil =>
    have hk0 : k = 0 := by simp at hk; omega
    subst hk0
    exact Nat.le_refl _
  | cons q rest ih =>
    obtain ⟨h1, h2⟩ := offsets_nondecreasing_cons h
    cases k with
    | zero => exact Nat.le_refl _
    | succ k =>
      have hk2 : k < (q :: rest).length := by simpa using hk
      have step : ((p :: q :: rest).get ⟨k + 1, hk⟩) = ((q :: rest).get ⟨k, hk2⟩) := rfl
      rw [step]
      exact Nat.le_trans h1 (ih q h2 k hk2)

theorem offsets_increasing_adjacent (l : List Page) :
    offsets_increasing l = true →
    ∀ (k : Nat) (hk : k + 1 < l.length),
      (l.get ⟨k, by omega⟩).offset < (l.get ⟨k + 1, hk⟩).offset := by
  induction l with
  | nil =>
    intro _ k hk
    simp at hk
  | cons p tail ih =>
    intro h k hk
    cases tail with
    | nil => simp at hk
    | cons q rest =>
      obtain ⟨h1, h2⟩ := offsets_increasing_cons h
      cases k with
      | zero => exact h1
      | succ k =>
        have hk2 : k + 1 < (q :: rest).length := by simpa using hk
        exact ih h2 k hk2

theorem findFrom_ge {hay c : List Char} {s p : Nat}
    (h : findFrom hay c s = some p) : s ≤ p := by
  have h2 := List.find?_some h
  simp only [Bool.and_eq_true, decide_eq_true_eq] at h2
  exact h2.1

theorem find_page_locate (pages : List Page) (off : Nat) :
    ∀ (j : Nat),
    offsets_nondecreasing pages = true →
    ∀ (hj : j < pages.length),
    (pages.get ⟨j, hj⟩).offset ≤ off →
    (∀ (hj1 : j + 1 < pages.length), off < (pages.get ⟨j + 1, hj1⟩).offset) →
    find_page pages off = (pages.get ⟨j, hj⟩).page_num := by
  induction pages with
  | nil =>
    intro j _ hj
    simp at hj
  | cons p tail ih =>
    intro j hmono hj hlo hhi
    cases tail with
    | nil =>
      have hj0 : j = 0 := by simp at hj; omega
      subst hj0
      rfl
    | cons q rest =>
      obtain ⟨h1, h2⟩ := offsets_nondecreasing_cons hmono
      cases j with
      | zero =>
        have hq : off < q.offset := hhi (by simp)
        have hp : p.offset ≤ off := hlo
        show (if p.offset ≤ off ∧ off < q.offset then p.page_num
          else find_page (q :: rest) off) = p.page_num
        rw [if_pos ⟨hp, hq⟩]
      | succ k =>
        have hk : k < (q :: rest).length := by simpa using hj
        have hstep : ((p :: q :: rest).get ⟨k + 1, hj⟩) = ((q :: rest).get ⟨k, hk⟩) := rfl
        have hqoff : q.offset ≤ off := by
          have hh := offset_head_le rest q h2 k hk
          rw [hstep] at hlo
          exact Nat.le_trans hh hlo
        have hguard : ¬(p.offset ≤ off ∧ off < q.offset) := by
          intro hc
          omega
        show (if p.offset ≤ off ∧ off < q.offset then p.page_num
          else find_page (q :: rest) off) = _
        rw [if_neg hguard, hstep]
        refine ih k h2 hk ?_ ?_
        · rw [hstep] at hlo; exact hlo
        · intro hk1
          have hk1t : k + 1 + 1 < (p :: q :: rest).length := by simpa using hk1
          have := hhi hk1t
          exact this

theorem head_offset_le_getLast (l : List Page) (p q : Page)
    (hmono : offsets_nondecreasing (p :: l) = true)
    (hlast : (p :: l).getLast? = some q) : p.offset ≤ q.offset := by
  induction l generalizing p with
  | nil =>
    have hqp : p = q := by simpa using hlast
    rw [hqp]
  | cons r rest ih =>
    obtain ⟨h1, h2⟩ := offsets_nondecreasing_cons hmono
    have hlast2 : (r :: rest).getLast? = some q := by
      simpa [List.getLast?_cons_cons] using hlast
    exact Nat.le_trans h1 (ih r h2 hlast2)

/-! ### Claims about `find_page` (Chunk Attributor) -/

/-- Claim C1 counterexample: with non-decreasing (but not strictly
increasing) offsets the claim fails.  The pages
`[{page_num 1, offset 0, text ""}, {page_num 2, offset 0, text "ab"}]`
satisfy every stated invariant (offsets non-decreasing, each offset the
sum of the preceding text lengths), yet `find_page` applied to
`pages[0].offset = 0` returns 2, not `pages[0].page_num = 1`: the
adjacent-pair test `0 <= 0 < 0` fails, so the fallback returns the last
page's number. -/
theorem find_page_at_page_offset_counterexample :
    offsets_nondecreasing [⟨1, 0, []⟩, ⟨2, 0, ['a', 'b']⟩] = true ∧
    (([⟨1, 0, []⟩, ⟨2, 0, ['a', 'b']⟩] : List Page).get ⟨0, by decide⟩).offset = 0 ∧
    (([⟨1, 0, []⟩, ⟨2, 0, ['a', 'b']⟩] : List Page).get ⟨0, by decide⟩).page_num = 1 ∧
    find_page [⟨1, 0, []⟩, ⟨2, 0, ['a', 'b']⟩] 0 = 2 := by
  decide

/-- Claim C1 (amended): for every non-empty page sequence with strictly
increasing offsets and every index `i`, `find_page` at
`pages[i].offset` returns `pages[i].page_num`. -/
theorem find_page_at_page_offset (pages : List Page)
    (hinc : offsets_increasing pages = true)
    (i : Nat) (hi : i < pages.length) :
    find_page pages (pages.get ⟨i, hi⟩).offset = (pages.get ⟨i, hi⟩).page_num := by
  refine find_page_locate pages (pages.get ⟨i, hi⟩).offset i
    (offsets_increasing_nondecr pages hinc) hi (Nat.le_refl _) ?_
  intro hi1
  exact offsets_increasing_adjacent pages hinc i hi1

/-- Concrete run of the amended C1 theorem: two pages at offsets 0 and
1; looking up each page's own offset returns its page number. -/
theorem find_page_at_page_offset_witness :
    offsets_increasing [⟨3, 0, ['a']⟩, ⟨4, 1, ['b']⟩] = true ∧
    find_page [⟨3, 0, ['a']⟩, ⟨4, 1, ['b']⟩]
        ((([⟨3, 0, ['a']⟩, ⟨4, 1, ['b']⟩] : List Page).get ⟨1, by decide⟩).offset) =
      (([⟨3, 0, ['a']⟩, ⟨4, 1, ['b']⟩] : List Page).get ⟨1, by decide⟩).page_num :=
  ⟨by decide, find_page_at_page_offset _ (by decide) 1 (by decide)⟩

/-- Claim C8: for a non-empty page sequence with non-decreasing
offsets, an offset at or past the end of the last page's text (i.e. at
least the last page's offset plus its text length) clamps to the last
page: `find_page` returns the last page's `page_num`. -/
theorem find_page_past_end (pages : List Page) (q : Page) (off : Nat)
    (hmono : offsets_nondecreasing pages = true)
    (hlast : pages.getLast? = some q)
    (hoff : q.offset + q.text.length ≤ off) :
    find_page pages off = q.page_num := by
  induction pages with
  | nil => simp at hlast
  | cons p tail ih =>
    cases tail with
    | nil =>
      have hqp : p = q := by simpa using hlast
      rw [show find_page [p] off = p.page_num from rfl, hqp]
    | cons r rest =>
      obtain ⟨h1, h2⟩ := offsets_nondecreasing_cons hmono
      have hlast2 : (r :: rest).getLast? = some q := by
        simpa [List.getLast?_cons_cons] using hlast
      have hr : r.offset ≤ q.offset := head_offset_le_getLast rest r q h2 hlast2
      have hguard : ¬(p.offset ≤ off ∧ off < r.offset) := by
        intro hc
        omega
      show (if p.offset ≤ off ∧ off < r.offset then p.page_num
        else find_page (r :: rest) off) = q.page_num
      rw [if_neg hguard]
      exact ih h2 hlast2

/-- Concrete run of the C8 theorem: offset 7 is past the end of the
last page (offset 1, length 1); `find_page` returns its number. -/
theorem find_page_past_end_witness :
    find_page [⟨0, 0, ['a']⟩, ⟨1, 1, ['b']⟩] 7 = 1 :=
  find_page_past_end _ ⟨1, 1, ['b']⟩ 7 (by decide) (by decide) (by decide)

/-- Claim C9: for a single-page sequence `find_page` returns that
page's `page_num` at every offset — the adjacent-pair scan is vacuous
and the fallback returns the only page. -/
theorem find_page_single (p : Page) (off : Nat) :
    find_page [p] off = p.page_num := rfl

/-- Claim C10: for a non-empty page sequence with non-decreasing
offsets and an offset strictly below the first page's offset, no
adjacent pair matches, so `find_page` falls back to the last page's
`page_num`. -/
theorem find_page_before_first (pages : List Page) (q : Page) (off : Nat) :
    ∀ (p : Page),
    offsets_nondecreasing pages = true →
    pages.head? = some p →
    pages.getLast? = some q →
    off < p.offset →
    find_page pages off = q.page_num := by
  induction pages with
  | nil =>
    intro p _ hhead
    simp at hhead
  | cons x tail ih =>
    intro p hmono hhead hlast hoff
    have hxp : x = p := by simpa using hhead
    rw [← hxp] at hoff
    cases tail with
    | nil =>
      have hqp : x = q := by simpa using hlast
      rw [show find_page [x] off = x.page_num from rfl, hqp]
    | cons r rest =>
      obtain ⟨h1, h2⟩ := offsets_nondecreasing_cons hmono
      have hlast2 : (r :: rest).getLast? = some q := by
        simpa [List.getLast?_cons_cons] using hlast
      have hguard : ¬(x.offset ≤ off ∧ off < r.offset) := by
        intro hc
        omega
      show (if x.offset ≤ off ∧ off < r.offset then x.page_num
        else find_page (r :: rest) off) = q.page_num
      rw [if_neg hguard]
      exact ih r h2 rfl hlast2 (by omega)

/-- Concrete run of the C10 theorem: offset 2 lies below the first
page's offset 5; `find_page` returns the last page's number 9. -/
theorem find_page_before_first_witness :
    find_page [⟨8, 5, ['x']⟩, ⟨9, 6, ['y']⟩] 2 = 9 :=
  find_page_before_first _ ⟨9, 6, ['y']⟩ 2 ⟨8, 5, ['x']⟩
    (by decide) (by decide) (by decide) (by decide)

/-! ### Claims about the pure pipeline (Mode A) -/

theorem split_pages_trace_cons (pages : List Page)
    (chunker : List Char → List (List Char))
    (hne : pages.isEmpty = false)
    (hw : (full_text pages).all Char.isWhitespace = false) :
    split_pages_trace pages chunker =
      Event.chunkCall (full_text pages) ::
        splitLoopTrace pages (full_text pages) (chunker (full_text pages)) 0 := by
  simp only [split_pages_trace, hne, hw, Bool.false_eq_true, if_false]

theorem splitLoopTrace_cons_found (pages : List Page) (full c : List Char)
    (cs : List (List Char)) (cur s : Nat)
    (h : findFrom full c cur = some s) :
    splitLoopTrace pages full (c :: cs) cur =
      Event.yieldChunk ⟨find_page pages s, c⟩ ::
        splitLoopTrace pages full cs (s + c.length) := by
  simp only [splitLoopTrace, h]

/-- Claim C2: in the pure pipeline each chunk is located by a forward
search starting right after the previous located chunk's end
(hypotheses `h1` and `h2` are exactly those two searches), so when the
chunker returns the same string `c` twice and its occurrences at `p1`
and `p2` lie on pages `i` and `j` with `i < j`, the first result is
attributed to page `i` and the second to the later page `j`, with
`p2` at least one chunk length past `p1`. -/
theorem split_pages_duplicate_later_page (pages : List Page) (c : List Char)
    (p1 p2 i j : Nat)
    (hmono : offsets_nondecreasing pages = true)
    (hw : (full_text pages).all Char.isWhitespace = false)
    (h1 : findFrom (full_text pages) c 0 = some p1)
    (h2 : findFrom (full_text pages) c (p1 + c.length) = some p2)
    (hi1 : i + 1 < pages.length)
    (hlo1 : (pages.get ⟨i, by omega⟩).offset ≤ p1)
    (hhi1 : p1 < (pages.get ⟨i + 1, hi1⟩).offset)
    (hj : j < pages.length)
    (hlo2 : (pages.get ⟨j, hj⟩).offset ≤ p2)
    (hhi2 : ∀ (hj1 : j + 1 < pages.length), p2 < (pages.get ⟨j + 1, hj1⟩).offset)
    (_hij : i < j) :
    split_pages pages (fun _ => [c, c]) =
      [⟨(pages.get ⟨i, by omega⟩).page_num, c⟩,
        ⟨(pages.get ⟨j, hj⟩).page_num, c⟩] ∧
    p1 + c.length ≤ p2 := by
  have hne : pages.isEmpty = false := by
    cases pages with
    | nil => simp at hi1
    | cons a l => rfl
  have e1 : find_page pages p1 = (pages.get ⟨i, by omega⟩).page_num :=
    find_page_locate pages p1 i hmono (by omega) hlo1 (fun _ => hhi1)
  have e2 : find_page pages p2 = (pages.get ⟨j, hj⟩).page_num :=
    find_page_locate pages p2 j hmono hj hlo2 hhi2
  refine ⟨?_, findFrom_ge h2⟩
  calc split_pages pages (fun _ => [c, c])
      = yieldsOf (split_pages_trace pages (fun _ => [c, c])) := rfl
    _ = yieldsOf (Event.chunkCall (full_text pages) ::
          splitLoopTrace pages (full_text pages) [c, c] 0) := by
        rw [split_pages_trace_cons pages (fun _ => [c, c]) hne hw]
    _ = yieldsOf (Event.chunkCall (full_text pages) ::
          Event.yieldChunk ⟨find_page pages p1, c⟩ ::
            splitLoopTrace pages (full_text pages) [c] (p1 + c.length)) := by
        rw [splitLoopTrace_cons_found pages (full_text pages) c [c] 0 p1 h1]
    _ = yieldsOf (Event.chunkCall (full_text pages) ::
          Event.yieldChunk ⟨find_page pages p1, c⟩ ::
            Event.yieldChunk ⟨find_page pages p2, c⟩ ::
              splitLoopTrace pages (full_text pages) [] (p2 + c.length)) := by
        rw [splitLoopTrace_cons_found pages (full_text pages) c [] (p1 + c.length) p2 h2]
    _ = [⟨find_page pages p1, c⟩, ⟨find_page pages p2, c⟩] := rfl
    _ = [⟨(pages.get ⟨i, by omega⟩).page_num, c⟩,
          ⟨(pages.get ⟨j, hj⟩).page_num, c⟩] := by rw [e1, e2]

/-- Concrete run of the C2 theorem: two pages with identical text
`"ab"`, chunker output `["ab", "ab"]`; the first chunk lands on page 0
and the duplicate on page 1. -/
theorem split_pages_duplicate_later_page_witness :
    split_pages [⟨0, 0, ['a', 'b']⟩, ⟨1, 2, ['a', 'b']⟩]
        (fun _ => [['a', 'b'], ['a', 'b']]) =
      [⟨0, ['a', 'b']⟩, ⟨1, ['a', 'b']⟩] ∧
    0 + (['a', 'b'] : List Char).length ≤ 2 :=
  split_pages_duplicate_later_page
    [⟨0, 0, ['a', 'b']⟩, ⟨1, 2, ['a', 'b']⟩] ['a', 'b'] 0 2 0 1
    (by decide) (by decide) (by decide) (by decide) (by decide) (by decide)
    (by decide) (by decide) (by decide)
    (fun hj1 => absurd hj1 (by decide)) (by decide)

/-- Claim C3: in the pure pipeline, a chunk that cannot be located
(`findFrom` returns `none`, Python `find` returns -1) is still yielded
with the sentinel `page_num` 0, the search cursor `cur` is not
advanced, and the loop continues with the remaining chunks instead of
aborting. -/
theorem splitLoop_miss_sentinel (pages : List Page) (full c : List Char)
    (cs : List (List Char)) (cur : Nat)
    (h : findFrom full c cur = none) :
    splitLoopTrace pages full (c :: cs) cur =
      Event.yieldChunk ⟨0, c⟩ :: splitLoopTrace pages full cs cur := by
  simp only [splitLoopTrace, h]

/-- Concrete run of the C3 theorem: the chunk `"z"` does not occur in
`"ab"`; it is yielded with page 0 and the loop continues on the
remaining chunk list with the cursor still at 0. -/
theorem splitLoop_miss_sentinel_witness :
    splitLoopTrace [⟨0, 0, ['a', 'b']⟩] ['a', 'b'] [['z'], ['a']] 0 =
      Event.yieldChunk ⟨0, ['z']⟩ ::
        splitLoopTrace [⟨0, 0, ['a', 'b']⟩] ['a', 'b'] [['a']] 0 :=
  splitLoop_miss_sentinel _ _ _ _ _ (by decide)

/-! ### Claims about degenerate inputs, Mode B, and laziness -/

theorem splitLoopTrace_filter_provider (pages : List Page) (full : List Char) :
    ∀ (chunks : List (List Char)) (cur : Nat),
      (splitLoopTrace pages full chunks cur).filter isProviderEffect = [] := by
  intro chunks
  induction chunks with
  | nil =>
    intro cur
    rfl
  | cons c cs ih =>
    intro cur
    cases hf : findFrom full c cur with
    | none =>
      simp only [splitLoopTrace, hf, List.filter_cons]
      simpa [isProviderEffect] using ih cur
    | some s =>
      simp only [splitLoopTrace, hf, List.filter_cons]
      simpa [isProviderEffect] using ih (s + c.length)

theorem takeYields_zero (tr : List Event) : takeYields tr 0 = [] := by
  cases tr with
  | nil => rfl
  | cons e t => cases e <;> rfl

theorem takeYields_nil (k : Nat) : takeYields [] k = [] := by
  cases k <;> rfl

theorem takeYields_cons_not_yield (e : Event) (tr : List Event) (k : Nat)
    (h : isYieldEv e = false) :
    takeYields (e :: tr) (k + 1) = e :: takeYields tr (k + 1) := by
  cases e with
  | yieldChunk sp => simp [isYieldEv] at h
  | chunkCall full => rfl
  | embedCall c => rfl
  | storeAdd a b v => rfl

theorem takeYields_cons_yield (sp : SplitPage) (tr : List Event) (k : Nat) :
    takeYields (Event.yieldChunk sp :: tr) (k + 1) =
      Event.yieldChunk sp :: takeYields tr k := rfl

theorem takeYields_append_no_yield (l tr : List Event) (k : Nat)
    (h : ∀ e ∈ l, isYieldEv e = false) :
    takeYields (l ++ tr) (k + 1) = l ++ takeYields tr (k + 1) := by
  induction l with
  | nil => rfl
  | cons e l2 ih =>
    rw [List.cons_append, takeYields_cons_not_yield e _ k (h e (by simp)),
      ih (fun x hx => h x (by simp [hx]))]
    rfl

theorem filter_provider_embeds (l : List (List Char)) :
    (l.map Event.embedCall).filter isProviderEffect = l.map Event.embedCall := by
  induction l with
  | nil => rfl
  | cons c cs ih => simp [isProviderEffect, ih]

theorem filter_provider_yields (l : List (List Char)) :
    ((l.map (fun c => Event.yieldChunk ⟨0, c⟩)).filter isProviderEffect) = [] := by
  induction l with
  | nil => rfl
  | cons c cs ih => simp [isProviderEffect, ih]

theorem no_yield_embeds (l : List (List Char)) :
    ∀ e ∈ l.map Event.embedCall, isYieldEv e = false := by
  intro e he
  rcases List.mem_map.mp he with ⟨c, _, rfl⟩
  rfl

theorem yieldsOf_append (a b : List Event) :
    yieldsOf (a ++ b) = yieldsOf a ++ yieldsOf b := by
  simp [yieldsOf]

theorem yieldsOf_embeds (l : List (List Char)) :
    yieldsOf (l.map Event.embedCall) = [] := by
  induction l with
  | nil => rfl
  | cons c cs ih =>
    rw [List.map_cons, show yieldsOf (Event.embedCall c :: cs.map Event.embedCall) =
      yieldsOf (cs.map Event.embedCall) from rfl, ih]

theorem yieldsOf_yield_map (l : List (List Char)) :
    yieldsOf (l.map (fun c => Event.yieldChunk ⟨0, c⟩)) =
      l.map (fun c => SplitPage.mk 0 c) := by
  induction l with
  | nil => rfl
  | cons c cs ih => simpa [yieldsOf] using ih

/-- Claim C4: for an empty page sequence, or page texts whose
concatenation is empty or whitespace-only, both pipeline variants
produce an empty event trace: zero chunks are yielded and no chunker,
embedding, or store call is made. -/
theorem split_pages_degenerate (pages : List Page)
    (chunker : List Char → List (List Char)) (f : List Char → List Int)
    (h : pages = [] ∨ (full_text pages).all Char.isWhitespace = true) :
    split_pages_trace pages chunker = [] ∧
    split_pages_store_trace pages chunker f = [] ∧
    split_pages pages chunker = [] := by
  have hstore : (full_text pages).all Char.isWhitespace = true →
      split_pages_store_trace pages chunker f = [] := by
    intro hw
    simp [split_pages_store_trace, hw]
  rcases h with h | hw
  · subst h
    exact ⟨rfl, hstore rfl, rfl⟩
  · have htr : split_pages_trace pages chunker = [] := by
      simp [split_pages_trace, hw]
    refine ⟨htr, hstore hw, ?_⟩
    show yieldsOf (split_pages_trace pages chunker) = []
    rw [htr]
    rfl

/-- Concrete run of the C4 theorem: one page holding a single space;
both variants produce no event at all. -/
theorem split_pages_degenerate_witness :
    split_pages_trace [⟨0, 0, [' ']⟩] (fun _ => [[' ']]) = [] ∧
    split_pages_store_trace [⟨0, 0, [' ']⟩] (fun _ => [[' ']]) (fun _ => [1]) = [] ∧
    split_pages [⟨0, 0, [' ']⟩] (fun _ => [[' ']]) = [] :=
  split_pages_degenerate _ _ _ (Or.inr (by decide))

/-- Claim C5: for non-degenerate input (the concatenated text is not
all whitespace) the storage-coupled pipeline invokes the chunker once,
embeds every chunk in input order (one vector per chunk), performs a
single store add holding all chunks and embeddings under ids
`chunk_0 .. chunk_{n-1}` indexed per call, and only then yields the
chunks, every one with the placeholder `page_num` 0 and no page
attribution. -/
theorem split_pages_store_behavior (pages : List Page)
    (chunker : List Char → List (List Char)) (f : List Char → List Int)
    (hw : (full_text pages).all Char.isWhitespace = false) :
    split_pages_store_trace pages chunker f =
      Event.chunkCall (full_text pages) ::
        ((chunker (full_text pages)).map Event.embedCall ++
          (Event.storeAdd
              ((List.range (chunker (full_text pages)).length).map chunk_id)
              (chunker (full_text pages))
              ((chunker (full_text pages)).map f) ::
            (chunker (full_text pages)).map (fun c => Event.yieldChunk ⟨0, c⟩))) ∧
    yieldsOf (split_pages_store_trace pages chunker f) =
      (chunker (full_text pages)).map (fun c => SplitPage.mk 0 c) := by
  have htr : split_pages_store_trace pages chunker f =
      Event.chunkCall (full_text pages) ::
        ((chunker (full_text pages)).map Event.embedCall ++
          (Event.storeAdd
              ((List.range (chunker (full_text pages)).length).map chunk_id)
              (chunker (full_text pages))
              ((chunker (full_text pages)).map f) ::
            (chunker (full_text pages)).map (fun c => Event.yieldChunk ⟨0, c⟩))) := by
    simp only [split_pages_store_trace, hw, Bool.false_eq_true, if_false]
  refine ⟨htr, ?_⟩
  rw [htr]
  calc yieldsOf (Event.chunkCall (full_text pages) ::
        ((chunker (full_text pages)).map Event.embedCall ++
          (Event.storeAdd
              ((List.range (chunker (full_text pages)).length).map chunk_id)
              (chunker (full_text pages))
              ((chunker (full_text pages)).map f) ::
            (chunker (full_text pages)).map (fun c => Event.yieldChunk ⟨0, c⟩))))
      = yieldsOf ((chunker (full_text pages)).map Event.embedCall) ++
          yieldsOf ((chunker (full_text pages)).map
            (fun c => Event.yieldChunk ⟨0, c⟩)) := by
        rw [show yieldsOf (Event.chunkCall (full_text pages) ::
            ((chunker (full_text pages)).map Event.embedCall ++
              (Event.storeAdd
                  ((List.range (chunker (full_text pages)).length).map chunk_id)
                  (chunker (full_text pages))
                  ((chunker (full_text pages)).map f) ::
                (chunker (full_text pages)).map
                  (fun c => Event.yieldChunk ⟨0, c⟩)))) =
            yieldsOf ((chunker (full_text pages)).map Event.embedCall ++
              (Event.storeAdd
                  ((List.range (chunker (full_text pages)).length).map chunk_id)
                  (chunker (full_text pages))
                  ((chunker (full_text pages)).map f) ::
                (chunker (full_text pages)).map
                  (fun c => Event.yieldChunk ⟨0, c⟩))) from rfl]
        rw [yieldsOf_append]
        rfl
    _ = (chunker (full_text pages)).map (fun c => SplitPage.mk 0 c) := by
        rw [yieldsOf_embeds, yieldsOf_yield_map]
        rfl

/-- Concrete run of the C5 theorem with two chunks and a length
embedding: the full trace in order. -/
theorem split_pages_store_behavior_witness :
    split_pages_store_trace [⟨0, 0, ['a', 'b']⟩] (fun _ => [['a'], ['b']])
        (fun c => [(c.length : Int)]) =
      Event.chunkCall ['a', 'b'] ::
        ([Event.embedCall ['a'], Event.embedCall ['b']] ++
          (Event.storeAdd [chunk_id 0, chunk_id 1] [['a'], ['b']] [[1], [1]] ::
            [Event.yieldChunk ⟨0, ['a']⟩, Event.yieldChunk ⟨0, ['b']⟩])) ∧
    yieldsOf (split_pages_store_trace [⟨0, 0, ['a', 'b']⟩]
        (fun _ => [['a'], ['b']]) (fun c => [(c.length : Int)])) =
      [⟨0, ['a']⟩, ⟨0, ['b']⟩] :=
  split_pages_store_behavior [⟨0, 0, ['a', 'b']⟩] (fun _ => [['a'], ['b']])
    (fun c => [(c.length : Int)]) (by decide)

/-- Claim C6 counterexample: the claim fails on the storage-coupled
pipeline.  With two chunks, a consumer that stops after one chunk has
already forced the embedding of the second chunk and the store add
persisting it: both events sit inside the executed prefix
`takeYields tr 1`. -/
theorem split_pages_early_stop_counterexample :
    Event.embedCall ['b'] ∈
      takeYields (split_pages_store_trace [⟨0, 0, ['a', 'b']⟩]
        (fun _ => [['a'], ['b']]) (fun c => [(c.length : Int)])) 1 ∧
    Event.storeAdd [chunk_id 0, chunk_id 1] [['a'], ['b']] [[1], [1]] ∈
      takeYields (split_pages_store_trace [⟨0, 0, ['a', 'b']⟩]
        (fun _ => [['a'], ['b']]) (fun c => [(c.length : Int)])) 1 := by
  decide

/-- Claim C6 (amended): production is lazy only up to the first chunk.
The pure pipeline performs no embedding or store call at all; in either
variant a consumer that requests no chunk forces no event; but in the
storage-coupled variant every embedding and store call is already
forced by consuming the first chunk — the provider effects of the
whole run equal those of the prefix executed for one chunk. -/
theorem split_pages_lazy_amended (pages : List Page)
    (chunker : List Char → List (List Char)) (f : List Char → List Int) :
    (split_pages_trace pages chunker).filter isProviderEffect = [] ∧
    takeYields (split_pages_trace pages chunker) 0 = [] ∧
    takeYields (split_pages_store_trace pages chunker f) 0 = [] ∧
    (split_pages_store_trace pages chunker f).filter isProviderEffect =
      (takeYields (split_pages_store_trace pages chunker f) 1).filter
        isProviderEffect := by
  refine ⟨?_, takeYields_zero _, takeYields_zero _, ?_⟩
  · by_cases hne : pages.isEmpty
    · simp [split_pages_trace, hne]
    · by_cases hw2 : (full_text pages).all Char.isWhitespace
      · simp [split_pages_trace, hw2]
      · simp only [Bool.not_eq_true] at hne hw2
        rw [split_pages_trace_cons pages chunker hne hw2, List.filter_cons]
        simpa [isProviderEffect] using
          splitLoopTrace_filter_provider pages (full_text pages)
            (chunker (full_text pages)) 0
  · by_cases hw2 : (full_text pages).all Char.isWhitespace
    · have hemp : split_pages_store_trace pages chunker f = [] := by
        simp [split_pages_store_trace, hw2]
      rw [hemp]
      rfl
    · simp only [Bool.not_eq_true] at hw2
      have htr : split_pages_store_trace pages chunker f =
          Event.chunkCall (full_text pages) ::
            ((chunker (full_text pages)).map Event.embedCall ++
              (Event.storeAdd
                  ((List.range (chunker (full_text pages)).length).map chunk_id)
                  (chunker (full_text pages))
                  ((chunker (full_text pages)).map f) ::
                (chunker (full_text pages)).map
                  (fun c => Event.yieldChunk ⟨0, c⟩))) := by
        simp only [split_pages_store_trace, hw2, Bool.false_eq_true, if_false]
      rw [htr]
      rw [takeYields_cons_not_yield (Event.chunkCall (full_text pages)) _ 0 rfl,
        takeYields_append_no_yield _ _ 0 (no_yield_embeds _),
        takeYields_cons_not_yield (Event.storeAdd
          ((List.range (chunker (full_text pages)).length).map chunk_id)
          (chunker (full_text pages))
          ((chunker (full_text pages)).map f)) _ 0 rfl]
      cases hchunks : chunker (full_text pages) with
      | nil =>
        simp [takeYields_nil, isProviderEffect]
      | cons c cs =>
        simp only [List.map_cons, takeYields_cons_yield, takeYields_zero]
        simp [List.filter_cons, List.filter_append, isProviderEffect,
          filter_provider_embeds, filter_provider_yields]

/-- Claim C7, evaluated on the code: `retrieve_context` has no guard on
`top_k`.  For `top_k = 0` and `top_k = -1` it still embeds the query
and proceeds with the store lookup (`n_results = top_k`) instead of
raising at call time; the model is a total function with no failure
path, mirroring the absence of any raise in the source. -/
theorem retrieve_context_no_fail_fast :
    retrieve_context ['q'] 0 = [REvent.embedQuery ['q'], REvent.storeQuery 0] ∧
    retrieve_context ['q'] (-1) =
      [REvent.embedQuery ['q'], REvent.storeQuery (-1)] :=
  ⟨rfl, rfl⟩
